import Mathlib

/-!
Shallow embedding of the quick-search employee-directory repository
(`app/models.py`, `app/database.py`, `app/repository.py`, `main.py`)
together with proofs checking the natural-language specification against
the code.

Conventions of the embedding:
* Python strings are Lean `String`s (operated on through their `List Char`
  data where parsing is involved).
* SQLite tables are Lean lists of row structures; the surrogate
  `AUTOINCREMENT` id is an explicit `Nat` counter.
* The SQLite C-API `changes()` counter is part of the connection state:
  it reports the row count of the most recently completed statement, which
  for `executemany` is the count of the *last* parameter binding only.
* Fallible Python code (exceptions) is modelled with `Except` / `Option`.
-/

/-! ### Decimal digits (used by `date.isoformat`, `strptime` and `json.dumps`) -/

/-- The decimal digit character for `n` (defined for `n < 10`). -/
def digitChar : Nat → Char
  | 0 => '0' | 1 => '1' | 2 => '2' | 3 => '3' | 4 => '4'
  | 5 => '5' | 6 => '6' | 7 => '7' | 8 => '8' | 9 => '9'
  | _ => '*'

/-- The numeric value of a decimal digit character. -/
def digitVal : Char → Nat
  | '0' => 0 | '1' => 1 | '2' => 2 | '3' => 3 | '4' => 4
  | '5' => 5 | '6' => 6 | '7' => 7 | '8' => 8 | '9' => 9
  | _ => 0

/-- Whether a character is an ASCII decimal digit. -/
def isDigitCh (c : Char) : Bool := decide ('0' ≤ c ∧ c ≤ '9')

/-- Fuel-indexed helper for `natToChars` (structural recursion so that
the kernel can evaluate it on literals). -/
def natToCharsF : Nat → Nat → List Char
  | 0, _ => []
  | f + 1, n =>
    if n < 10 then [digitChar n]
    else natToCharsF f (n / 10) ++ [digitChar (n % 10)]

/-- Decimal rendering of a natural number, most significant digit first
(the format `"%d"` / `json.dumps` / `repr` use for non-negative ints). -/
def natToChars (n : Nat) : List Char :=
  natToCharsF (n + 1) n

theorem natToCharsF_fuel (n : Nat) : ∀ f₁ f₂, n < f₁ → n < f₂ →
    natToCharsF f₁ n = natToCharsF f₂ n := by
  induction n using Nat.strong_induction_on with
  | _ n ih =>
    intro f₁ f₂ h₁ h₂
    match f₁, f₂ with
    | m₁ + 1, m₂ + 1 =>
      simp only [natToCharsF]
      by_cases h10 : n < 10
      · simp [h10]
      · have hdiv : n / 10 < n := Nat.div_lt_self (by omega) (by omega)
        simp only [if_neg h10]
        rw [ih (n / 10) hdiv m₁ m₂ (by omega) (by omega)]

/-- The natural recurrence of `natToChars`. -/
theorem natToChars_eq (n : Nat) : natToChars n =
    if n < 10 then [digitChar n]
    else natToChars (n / 10) ++ [digitChar (n % 10)] := by
  show natToCharsF (n + 1) n = _
  simp only [natToCharsF]
  by_cases h10 : n < 10
  · simp [h10]
  · have hdiv : n / 10 < n := Nat.div_lt_self (by omega) (by omega)
    simp only [if_neg h10]
    rw [natToCharsF_fuel (n / 10) n (n / 10 + 1) (by omega) (by omega)]
    rfl

/-- Reading a digit string back as a number (most significant first). -/
def digitsToNat (ds : List Char) : Nat :=
  ds.foldl (fun a c => 10 * a + digitVal c) 0

theorem digitVal_digitChar {k : Nat} (h : k < 10) : digitVal (digitChar k) = k := by
  interval_cases k <;> rfl

theorem isDigitCh_digitChar {k : Nat} (h : k < 10) : isDigitCh (digitChar k) = true := by
  interval_cases k <;> rfl

theorem natToChars_ne_nil (n : Nat) : natToChars n ≠ [] := by
  rw [natToChars_eq]
  split <;> simp

theorem natToChars_all_digits (n : Nat) : ∀ c ∈ natToChars n, isDigitCh c = true := by
  induction n using Nat.strong_induction_on with
  | _ n ih =>
    rw [natToChars_eq]
    split
    next h =>
      intro c hc
      simp only [List.mem_singleton] at hc
      subst hc
      exact isDigitCh_digitChar h
    next h =>
      intro c hc
      rcases List.mem_append.1 hc with h1 | h2
      · exact ih (n / 10) (Nat.div_lt_self (by omega) (by omega)) c h1
      · simp only [List.mem_singleton] at h2
        subst h2
        exact isDigitCh_digitChar (Nat.mod_lt _ (by omega))

theorem foldl_digits_append (ds : List Char) (c : Char) (a : Nat) :
    (ds ++ [c]).foldl (fun a c => 10 * a + digitVal c) a
      = 10 * (ds.foldl (fun a c => 10 * a + digitVal c) a) + digitVal c := by
  simp [List.foldl_append]

theorem digitsToNat_natToChars (n : Nat) : digitsToNat (natToChars n) = n := by
  induction n using Nat.strong_induction_on with
  | _ n ih =>
    rw [natToChars_eq]
    split
    next h => simp [digitsToNat, digitVal_digitChar h]
    next h =>
      have hd : n / 10 < n := Nat.div_lt_self (by omega) (by omega)
      have := ih (n / 10) hd
      simp only [digitsToNat] at this ⊢
      rw [foldl_digits_append, this, digitVal_digitChar (Nat.mod_lt _ (by omega))]
      omega

theorem natToChars_length_le {n k : Nat} (hk : 0 < k) (h : n < 10 ^ k) :
    (natToChars n).length ≤ k := by
  induction k generalizing n with
  | zero => omega
  | succ k ih =>
    rw [natToChars_eq]
    split
    next => simp
    next h10 =>
      have hk' : 0 < k := by
        rcases Nat.eq_zero_or_pos k with rfl | hpos
        · simp at h; omega
        · exact hpos
      have hdiv : n / 10 < 10 ^ k := by
        have : n < 10 * 10 ^ k := by
          calc n < 10 ^ (k + 1) := h
          _ = 10 * 10 ^ k := by ring
        omega
      have := ih hk' hdiv
      simp only [List.length_append, List.length_singleton]
      omega

/-- Leading zeros do not change the decoded value. -/
theorem digitsToNat_replicate_zero (k : Nat) (ds : List Char) :
    digitsToNat (List.replicate k '0' ++ ds) = digitsToNat ds := by
  induction k with
  | zero => simp
  | succ k ih =>
    simp only [List.replicate_succ, List.cons_append, digitsToNat, List.foldl_cons]
    simpa [digitsToNat, digitVal] using ih

/-! ### Python string primitives used by `app/models.py` -/

/-- Ascii whitespace characters stripped by Python `str.strip()`
(`" \t\n\r\x0b\x0c"`). -/
def isPyWhitespace (c : Char) : Bool :=
  c = ' ' || c = '\t' || c = '\n' || c = '\r' || c = '\x0b' || c = '\x0c'

/-- Python `str.strip()`: remove leading and trailing whitespace. -/
def pyStrip (s : String) : String :=
  ⟨((s.data.dropWhile isPyWhitespace).reverse.dropWhile isPyWhitespace).reverse⟩

/-- ASCII lower-casing of a single character (identity outside `A`-`Z`). -/
def asciiLower (c : Char) : Char :=
  if 'A' ≤ c ∧ c ≤ 'Z' then Char.ofNat (c.toNat + 32) else c

/-- ASCII upper-casing of a single character (identity outside `a`-`z`). -/
def asciiUpper (c : Char) : Char :=
  if 'a' ≤ c ∧ c ≤ 'z' then Char.ofNat (c.toNat - 32) else c

/-- Python `str.capitalize()`: first character upper-cased, the rest
lower-cased (restricted to its ASCII behaviour, which covers the gender
strings this program feeds it). -/
def pyCapitalize (s : String) : String :=
  match s.data with
  | [] => ""
  | c :: cs => ⟨asciiUpper c :: cs.map asciiLower⟩

/-- SQLite `full_name LIKE 'F%'`: the default `LIKE` is case-insensitive
over the ASCII range, so the test is "first character ASCII-case-folds to
`f`".  (`PRAGMA case_sensitive_like` is never set by `app/database.py`.) -/
def likeF (s : String) : Bool :=
  match s.data with
  | [] => false
  | c :: _ => asciiLower c = asciiLower 'F'

/-! ### Calendar dates (`datetime.date`, `strptime("%Y-%m-%d")`, `isoformat`) -/

/-- A calendar date as `datetime.date` stores it. -/
structure Date where
  year : Nat
  month : Nat
  day : Nat
deriving DecidableEq, Repr

/-- Gregorian leap-year rule (as `calendar`/`datetime` implement it). -/
def isLeap (y : Nat) : Bool :=
  (y % 4 = 0 && y % 100 ≠ 0) || y % 400 = 0

/-- Days in a month of the proleptic Gregorian calendar. -/
def daysInMonth (y m : Nat) : Nat :=
  if m = 2 then (if isLeap y then 29 else 28)
  else if m = 4 ∨ m = 6 ∨ m = 9 ∨ m = 11 then 30
  else 31

/-- The dates `datetime.date` accepts (year 1..9999, valid month/day). -/
def ValidDate (d : Date) : Prop :=
  1 ≤ d.year ∧ d.year ≤ 9999 ∧ 1 ≤ d.month ∧ d.month ≤ 12 ∧
    1 ≤ d.day ∧ d.day ≤ daysInMonth d.year d.month

instance (d : Date) : Decidable (ValidDate d) := by
  unfold ValidDate; infer_instance

/-- Zero-padded fixed-width decimal, as `"%04d"` / `"%02d"` produce. -/
def padNat (w n : Nat) : List Char :=
  List.replicate (w - (natToChars n).length) '0' ++ natToChars n

/-- `date.isoformat()`: `YYYY-MM-DD`. -/
def isoDateStr (d : Date) : String :=
  ⟨padNat 4 d.year ++ '-' :: padNat 2 d.month ++ '-' :: padNat 2 d.day⟩

/-- Python `str.split('-')` on the character list (keeps empty parts). -/
def splitDash : List Char → List (List Char)
  | [] => [[]]
  | c :: rest =>
    if c = '-' then [] :: splitDash rest
    else
      match splitDash rest with
      | [] => [[c]]
      | p :: ps => (c :: p) :: ps

/-- Helper for `parseDate`: interpret the dash-separated parts. -/
def parseDateParts : List (List Char) → Option Date
  | [ys, ms, ds] =>
    if ys.length = 4 ∧ ys.all isDigitCh ∧
        (ms.length = 1 ∨ ms.length = 2) ∧ ms.all isDigitCh ∧
        (ds.length = 1 ∨ ds.length = 2) ∧ ds.all isDigitCh then
      if 1 ≤ digitsToNat ys ∧ 1 ≤ digitsToNat ms ∧ digitsToNat ms ≤ 12 ∧
          1 ≤ digitsToNat ds ∧
          digitsToNat ds ≤ daysInMonth (digitsToNat ys) (digitsToNat ms) then
        some ⟨digitsToNat ys, digitsToNat ms, digitsToNat ds⟩
      else none
    else none
  | _ => none

/-- `datetime.strptime(s, "%Y-%m-%d").date()` as a partial function:
`%Y` takes exactly four digits, `%m` and `%d` one or two digits, the
values must form a valid calendar date, and nothing may be left over.
Returns `none` where Python raises `ValueError`. -/
def parseDate (s : String) : Option Date :=
  parseDateParts (splitDash s.data)

theorem digit_ne_dash {c : Char} (h : isDigitCh c = true) : c ≠ '-' := by
  intro heq
  subst heq
  exact absurd h (by decide)

theorem splitDash_no_dash {l : List Char} (h : ∀ c ∈ l, c ≠ '-') :
    splitDash l = [l] := by
  induction l with
  | nil => rfl
  | cons c cs ih =>
    have hc : c ≠ '-' := h c (List.mem_cons_self c cs)
    have := ih (fun x hx => h x (List.mem_cons_of_mem c hx))
    simp [splitDash, hc, this]

theorem splitDash_append {a rest : List Char} (h : ∀ c ∈ a, c ≠ '-') :
    splitDash (a ++ '-' :: rest) = a :: splitDash rest := by
  induction a with
  | nil => simp [splitDash]
  | cons c cs ih =>
    have hc : c ≠ '-' := h c (List.mem_cons_self c cs)
    have := ih (fun x hx => h x (List.mem_cons_of_mem c hx))
    simp [splitDash, hc, this]

theorem padNat_all_digits (w n : Nat) : ∀ c ∈ padNat w n, isDigitCh c = true := by
  intro c hc
  rcases List.mem_append.1 hc with h1 | h2
  · rw [List.eq_of_mem_replicate h1]; rfl
  · exact natToChars_all_digits n c h2

theorem padNat_no_dash (w n : Nat) : ∀ c ∈ padNat w n, c ≠ '-' :=
  fun c hc => digit_ne_dash (padNat_all_digits w n c hc)

theorem digitsToNat_padNat (w n : Nat) : digitsToNat (padNat w n) = n := by
  unfold padNat
  rw [digitsToNat_replicate_zero, digitsToNat_natToChars]

theorem padNat_length {w n : Nat} (h : (natToChars n).length ≤ w) :
    (padNat w n).length = w := by
  simp only [padNat, List.length_append, List.length_replicate]
  omega

theorem digitVal_le (c : Char) : digitVal c ≤ 9 := by
  unfold digitVal
  split <;> omega

theorem digitsToNat_lt_pow (ds : List Char) : digitsToNat ds < 10 ^ ds.length := by
  suffices h : ∀ a, ds.foldl (fun a c => 10 * a + digitVal c) a < (a + 1) * 10 ^ ds.length by
    have := h 0
    simpa [digitsToNat] using this
  induction ds with
  | nil => intro a; simp
  | cons c cs ih =>
    intro a
    have h1 := ih (10 * a + digitVal c)
    have h2 : digitVal c ≤ 9 := digitVal_le c
    calc (c :: cs).foldl (fun a c => 10 * a + digitVal c) a
        = cs.foldl (fun a c => 10 * a + digitVal c) (10 * a + digitVal c) := by
          simp
      _ < (10 * a + digitVal c + 1) * 10 ^ cs.length := h1
      _ ≤ ((a + 1) * 10) * 10 ^ cs.length := by nlinarith
      _ = (a + 1) * 10 ^ (c :: cs).length := by
          simp [List.length_cons]
          ring

theorem daysInMonth_le (y m : Nat) : daysInMonth y m ≤ 31 := by
  unfold daysInMonth
  split
  · split <;> omega
  · split <;> omega

/-- `strptime` inverts `isoformat` on every date `datetime.date` can hold. -/
theorem parseDate_isoDateStr {d : Date} (h : ValidDate d) :
    parseDate (isoDateStr d) = some d := by
  obtain ⟨hy1, hy2, hm1, hm2, hd1, hd2⟩ := h
  have hdays := daysInMonth_le d.year d.month
  have hylen : (natToChars d.year).length ≤ 4 :=
    natToChars_length_le (by omega) (by omega)
  have hmlen : (natToChars d.month).length ≤ 2 :=
    natToChars_length_le (by omega) (by omega)
  have hdlen : (natToChars d.day).length ≤ 2 :=
    natToChars_length_le (by omega) (by omega)
  have hdata : (isoDateStr d).data
      = padNat 4 d.year ++ '-' :: (padNat 2 d.month ++ '-' :: padNat 2 d.day) := by
    show padNat 4 d.year ++ '-' :: padNat 2 d.month ++ '-' :: padNat 2 d.day = _
    simp
  have hsplit : splitDash (isoDateStr d).data
      = [padNat 4 d.year, padNat 2 d.month, padNat 2 d.day] := by
    rw [hdata, splitDash_append (padNat_no_dash 4 d.year),
      splitDash_append (padNat_no_dash 2 d.month),
      splitDash_no_dash (padNat_no_dash 2 d.day)]
  have hfmt : (padNat 4 d.year).length = 4 ∧ (padNat 4 d.year).all isDigitCh = true ∧
      ((padNat 2 d.month).length = 1 ∨ (padNat 2 d.month).length = 2) ∧
      (padNat 2 d.month).all isDigitCh = true ∧
      ((padNat 2 d.day).length = 1 ∨ (padNat 2 d.day).length = 2) ∧
      (padNat 2 d.day).all isDigitCh = true := by
    refine ⟨padNat_length hylen, ?_, Or.inr (padNat_length hmlen), ?_,
      Or.inr (padNat_length hdlen), ?_⟩ <;> simp only [List.all_eq_true]
    · exact padNat_all_digits 4 d.year
    · exact padNat_all_digits 2 d.month
    · exact padNat_all_digits 2 d.day
  unfold parseDate
  rw [hsplit]
  simp only [parseDateParts, digitsToNat_padNat]
  rw [if_pos hfmt, if_pos ⟨hy1, hm1, hm2, hd1, hd2⟩]

/-- If `parseDate` succeeds, the result is a valid calendar date. -/
theorem parseDate_valid {s : String} {d : Date} (h : parseDate s = some d) :
    ValidDate d := by
  unfold parseDate at h
  revert h
  show parseDateParts (splitDash s.data) = some d → ValidDate d
  generalize splitDash s.data = parts
  intro h
  unfold parseDateParts at h
  split at h
  next ys ms ds =>
    split at h
    next hfmt =>
      split at h
      next hval =>
        obtain ⟨h1, h2, h3, h4, h5⟩ := hval
        injection h with h
        subst h
        have hy : digitsToNat ys < 10 ^ ys.length := digitsToNat_lt_pow ys
        rw [hfmt.1] at hy
        norm_num at hy
        exact ⟨h1, by show digitsToNat ys ≤ 9999; omega, h2, h3, h4, h5⟩
      next => exact absurd h (by simp)
    next => exact absurd h (by simp)
  next => exact absurd h (by simp)

/-! ### `app/models.py`: the `Employee` dataclass -/

/-- Validation failures raised at record-construction time
(`ValueError` in `Employee.from_strings`). -/
inductive ValErr where
  | badDate
  | badGender
deriving DecidableEq, Repr

/-- The `Employee` dataclass: `full_name`, `birth_date`, `gender`. -/
structure Employee where
  full_name : String
  birth_date : Date
  gender : String
deriving DecidableEq, Repr

/-- Direct dataclass construction `Employee(full_name, birth_date, gender)`.
`__post_init__` strips the name and strip-capitalizes the gender; it does
NOT validate the gender against the two enum values. -/
def Employee.make (full_name : String) (birth_date : Date) (gender : String) :
    Employee :=
  ⟨pyStrip full_name, birth_date, pyCapitalize (pyStrip gender)⟩

/-- `Employee.from_strings`: parse the date with `strptime("%Y-%m-%d")`,
normalize the gender and reject anything but the two enum values, then
construct the dataclass (which re-runs `__post_init__`). -/
def Employee.from_strings (full_name birth_date gender : String) :
    Except ValErr Employee :=
  match parseDate birth_date with
  | none => .error .badDate
  | some d =>
    if pyCapitalize (pyStrip gender) = "Male" ∨
        pyCapitalize (pyStrip gender) = "Female" then
      .ok (Employee.make full_name d (pyCapitalize (pyStrip gender)))
    else .error .badGender

/-- `Employee.to_row`: the `(full_name, birth_date.isoformat(), gender)`
triple bound into SQL statements. -/
def Employee.to_row (e : Employee) : String × String × String :=
  (e.full_name, isoDateStr e.birth_date, e.gender)

/-- `Employee.age(reference_date)`: whole years, minus one when the
reference `(month, day)` precedes the birth `(month, day)`.  The reference
date (`date.today()` when the caller passes none) is explicit here. -/
def Employee.age (e : Employee) (ref : Date) : Int :=
  let years : Int := (ref.year : Int) - (e.birth_date.year : Int)
  if ref.month < e.birth_date.month ∨
      (ref.month = e.birth_date.month ∧ ref.day < e.birth_date.day) then
    years - 1
  else years

/-! ### `app/models.py`: `chunked` -/

/-- Helper for `chunked`: `batch` is the pending partial batch, in order. -/
def chunkedGo (size : Nat) : List α → List α → List (List α)
  | [], batch => if batch.isEmpty then [] else [batch]
  | x :: xs, batch =>
    if size ≤ (batch ++ [x]).length then (batch ++ [x]) :: chunkedGo size xs []
    else chunkedGo size xs (batch ++ [x])

/-- `chunked(iterable, size)`: split a sequence into batches; a batch is
emitted as soon as it reaches `size` elements, and a non-empty trailing
batch is emitted at the end. -/
def chunked (l : List α) (size : Nat) : List (List α) :=
  chunkedGo size l []

/-! ### `app/database.py` and `app/repository.py`: connection and tables -/

deriving instance DecidableEq for Except

/-- Database-level failures surfaced by SQLite statements. -/
inductive DbErr where
  | integrityError
deriving DecidableEq, Repr

/-- One row of the `employees` table: the `AUTOINCREMENT` surrogate id
plus the three text columns. -/
structure ERow where
  id : Nat
  full_name : String
  birth_date : String
  gender : String
deriving DecidableEq, Repr

/-- One row of the `compressed_employees` table; the payload is a blob
(byte list). -/
structure CRow where
  full_name : String
  birth_date : String
  gender : String
  payload : List Nat
deriving DecidableEq, Repr

/-- The connection state: both tables, the next surrogate id, and the
SQLite `changes()` counter (rows affected by the most recently completed
INSERT/UPDATE/DELETE statement). -/
structure DBState where
  employees : List ERow
  nextId : Nat
  compressed : List CRow
  lastChanges : Nat
deriving DecidableEq, Repr

/-- A freshly opened database with empty tables. -/
def initState : DBState :=
  ⟨[], 1, [], 0⟩

/-- `Database.transaction()` (`app/database.py`): run the body against the
connection; commit its new state on normal completion; on an exception
roll the state back to the snapshot at `BEGIN` and re-raise the original
exception unchanged. -/
def transactionRun {σ ε α : Type} (body : σ → Except ε (σ × α)) (s : σ) :
    σ × Except ε α :=
  match body s with
  | .ok (s', a) => (s', .ok a)
  | .error e => (s, .error e)

/-- Does the `employees` table already hold the `(full_name, birth_date)`
identity key (the `ux_employees_fullname_birth` unique index)? -/
def rowKeyExists (rows : List ERow) (n b : String) : Bool :=
  rows.any (fun e => e.full_name == n && e.birth_date == b)

/-- The `CHECK(gender IN ('Male', 'Female'))` column constraint. -/
def genderOk (g : String) : Bool :=
  g == "Male" || g == "Female"

/-- One execution of `INSERT OR IGNORE INTO employees ... VALUES (?,?,?)`:
a unique-index or CHECK violation makes the row be silently skipped
(`changes() = 0`); otherwise the row is appended with the next surrogate
id (`changes() = 1`). -/
def execInsertOrIgnoreEmployee (s : DBState) (r : String × String × String) :
    DBState :=
  if rowKeyExists s.employees r.1 r.2.1 || !genderOk r.2.2 then
    { s with lastChanges := 0 }
  else
    { s with
      employees := s.employees ++ [⟨s.nextId, r.1, r.2.1, r.2.2⟩],
      nextId := s.nextId + 1,
      lastChanges := 1 }

/-- `executemany` of the insert-or-ignore statement: the statement is
executed once per parameter row, so afterwards `changes()` reflects only
the LAST row (and is untouched when the parameter list is empty). -/
def executemanyIgnore (s : DBState) (rows : List (String × String × String)) :
    DBState :=
  rows.foldl execInsertOrIgnoreEmployee s

/-- `EmployeeRepository.insert_employee`: one insert-or-ignore inside one
transaction; returns `SELECT changes() > 0`, i.e. whether a new row was
actually written. -/
def insert_employee (s : DBState) (e : Employee) : DBState × Except DbErr Bool :=
  transactionRun
    (fun s0 =>
      let s1 := execInsertOrIgnoreEmployee s0 e.to_row
      .ok (s1, decide (0 < s1.lastChanges)))
    s

/-- The batch loop inside `bulk_insert`: for each batch run the
(possibly failing) `executemany` `em`, then add `SELECT changes()` to the
accumulator.  The loop runs inside a single enclosing transaction. -/
def bulkLoop {α ε : Type} (em : DBState → List α → Except ε DBState) :
    List (List α) → DBState → Nat → Except ε (DBState × Nat)
  | [], s, acc => .ok (s, acc)
  | b :: bs, s, acc =>
    match em s b with
    | .error e => .error e
    | .ok s' => bulkLoop em bs s' (acc + s'.lastChanges)

/-- `EmployeeRepository.bulk_insert`, generic in the per-batch statement
execution `em` (which, like any SQLite statement, may fail): ONE
transaction wraps the whole loop over `chunked employees batch_size`. -/
def bulk_insertWith {α ε : Type} (em : DBState → List α → Except ε DBState)
    (s : DBState) (employees : List α) (batchSize : Nat) :
    DBState × Except ε Nat :=
  transactionRun (fun s0 => bulkLoop em (chunked employees batchSize) s0 0) s

/-- `EmployeeRepository.bulk_insert` with the actual per-batch statement:
`executemany(INSERT OR IGNORE ..., [emp.to_row() for emp in batch])`,
which never raises on valid bindings. -/
def bulk_insert (s : DBState) (employees : List Employee) (batchSize : Nat) :
    DBState × Except DbErr Nat :=
  bulk_insertWith
    (fun st batch => .ok (executemanyIgnore st (batch.map Employee.to_row)))
    s employees batchSize

/-! ### `app/repository.py`: queries over the `employees` table -/

/-- `GROUP BY full_name, birth_date`: the distinct identity keys. -/
def keysOf (rows : List ERow) : List (String × String) :=
  (rows.map (fun e => (e.full_name, e.birth_date))).dedup

/-- The surrogate ids of the rows holding a given identity key. -/
def idsOfKey (rows : List ERow) (k : String × String) : List Nat :=
  (rows.filter (fun e => e.full_name == k.1 && e.birth_date == k.2)).map ERow.id

/-- `MIN` over a list of ids (`none` on the empty group). -/
def listMin : List Nat → Option Nat
  | [] => none
  | x :: xs =>
    match listMin xs with
    | none => some x
    | some m => some (Nat.min x m)

/-- `SELECT MIN(id) FROM employees GROUP BY full_name, birth_date`. -/
def groupMinIds (rows : List ERow) : List Nat :=
  (keysOf rows).filterMap (fun k => listMin (idsOfKey rows k))

/-- Decoding fetched rows through `Employee.from_strings`, in result
order; the first `ValueError` aborts the whole fetch (Python list
comprehension semantics). -/
def decodeRows : List ERow → Except ValErr (List Employee)
  | [] => .ok []
  | e :: es =>
    match Employee.from_strings e.full_name e.birth_date e.gender with
    | .error err => .error err
    | .ok emp =>
      match decodeRows es with
      | .error err => .error err
      | .ok emps => .ok (emp :: emps)

/-- The SQL of `fetch_unique_sorted`: keep the rows whose id is a group
minimum (the `JOIN ... ON e.id = uniq.min_id`), ordered by `full_name`
(BINARY collation = lexicographic on the stored string). -/
def fetch_unique_sorted_rows (rows : List ERow) : List ERow :=
  List.insertionSort (fun a b => a.full_name.data ≤ b.full_name.data)
    (rows.filter (fun e => (groupMinIds rows).contains e.id))

/-- `EmployeeRepository.fetch_unique_sorted` over a table state: run the
SQL, then decode every row through `Employee.from_strings`. -/
def fetch_unique_sorted (rows : List ERow) : Except ValErr (List Employee) :=
  decodeRows (fetch_unique_sorted_rows rows)

/-- The SQL of `fetch_male_surname_f`:
`WHERE gender = 'Male' AND full_name LIKE 'F%' ORDER BY full_name`.
`=` uses BINARY collation (case-sensitive); `LIKE` is the default
ASCII-case-insensitive SQLite operator. -/
def fetch_male_surname_f_rows (rows : List ERow) : List ERow :=
  List.insertionSort (fun a b => a.full_name.data ≤ b.full_name.data)
    (rows.filter (fun e => e.gender == "Male" && likeF e.full_name))

/-- `EmployeeRepository.fetch_male_surname_f` over a table state. -/
def fetch_male_surname_f (rows : List ERow) : Except ValErr (List Employee) :=
  decodeRows (fetch_male_surname_f_rows rows)

/-! ### `app/repository.py`: the compressed table -/

/-- `DELETE FROM compressed_employees` (sets `changes()` to the number of
deleted rows). -/
def execDeleteCompressed (s : DBState) : DBState :=
  { s with compressed := [], lastChanges := s.compressed.length }

/-- Does the compressed table hold the `(full_name, birth_date)` primary
key already? -/
def cKeyExists (rows : List CRow) (n b : String) : Bool :=
  rows.any (fun c => c.full_name == n && c.birth_date == b)

/-- One execution of `INSERT INTO compressed_employees ... VALUES
(?,?,?,?)` (no OR IGNORE: a duplicate primary key raises
`IntegrityError`). -/
def execInsertCompressed (s : DBState)
    (r : String × String × String × List Nat) : Except DbErr DBState :=
  if cKeyExists s.compressed r.1 r.2.1 then .error .integrityError
  else
    .ok { s with
      compressed := s.compressed ++ [⟨r.1, r.2.1, r.2.2.1, r.2.2.2⟩],
      lastChanges := 1 }

/-- `executemany` of the compressed insert, one execution per row. -/
def executemanyInsertCompressed :
    DBState → List (String × String × String × List Nat) → Except DbErr DBState
  | s, [] => .ok s
  | s, r :: rs =>
    match execInsertCompressed s r with
    | .error e => .error e
    | .ok s' => executemanyInsertCompressed s' rs

/-- `EmployeeRepository.replace_compressed_rows`: inside one transaction,
delete everything, `executemany` the new rows, and return
`SELECT changes()`. -/
def replace_compressed_rows (s : DBState)
    (rows : List (String × String × String × List Nat)) :
    DBState × Except DbErr Nat :=
  transactionRun
    (fun s0 =>
      match executemanyInsertCompressed (execDeleteCompressed s0) rows with
      | .error e => .error e
      | .ok s2 => .ok (s2, s2.lastChanges))
    s

/-- SQL `SUM(LENGTH(compressed_payload))`: `NULL` over zero rows. -/
def sqlSumLen (l : List Nat) : Option Nat :=
  if l.isEmpty then none else some l.sum

/-- `EmployeeRepository.compressed_table_stats`:
`SELECT COUNT(*), IFNULL(SUM(LENGTH(compressed_payload)), 0)`. -/
def compressed_table_stats (s : DBState) : Nat × Nat :=
  (s.compressed.length, (sqlSumLen (s.compressed.map (fun c => c.payload.length))).getD 0)

/-! ### `main.py` `mode_compressed_table`: the payload pipeline -/

/-- The structured record `json.dumps` serializes for one employee:
`{full_name, birth_date (ISO), gender, age}`. -/
structure PayloadRec where
  full_name : String
  birth_date : String
  gender : String
  age : Int
deriving DecidableEq, Repr

/-- The payload dict built in the `mode_compressed_table` loop. -/
def payloadOf (e : Employee) (ref : Date) : PayloadRec :=
  ⟨e.full_name, isoDateStr e.birth_date, e.gender, e.age ref⟩

/-- JSON string escaping as `json.dumps(ensure_ascii=False)` performs it
on strings free of control characters: quote and backslash get a
backslash, everything else is copied verbatim. -/
def escapeJson : List Char → List Char
  | [] => []
  | c :: cs =>
    if c = '"' ∨ c = '\\' then '\\' :: c :: escapeJson cs
    else c :: escapeJson cs

/-- `repr` of a Python int, as `json.dumps` emits it. -/
def intToChars (i : Int) : List Char :=
  if i < 0 then '-' :: natToChars (-i).toNat else natToChars i.toNat

/-- Literal fragments of the serialized object (default separators
`", "` and `": "`, keys in dict insertion order). -/
def litFullName : List Char := "\x7b\"full_name\": \"".data

def litBirth : List Char := ", \"birth_date\": \"".data

def litGender : List Char := ", \"gender\": \"".data

def litAge : List Char := ", \"age\": ".data

/-- `json.dumps(payload, ensure_ascii=False)` for the fixed payload
shape, written right-nested so that each syntactic layer is one
serialized field. -/
def jsonDumpsPayload (p : PayloadRec) : List Char :=
  litFullName ++ (escapeJson p.full_name.data ++ ('"' ::
    (litBirth ++ (escapeJson p.birth_date.data ++ ('"' ::
      (litGender ++ (escapeJson p.gender.data ++ ('"' ::
        (litAge ++ (intToChars p.age ++ ['\x7d']))))))))))

/-- Consume an expected literal prefix. -/
def expectLit : List Char → List Char → Option (List Char)
  | [], cs => some cs
  | _ :: _, [] => none
  | l :: ls, c :: cs => if c = l then expectLit ls cs else none

/-- Read a JSON string body up to its closing quote, undoing
`escapeJson`. -/
def readJsonString : List Char → Option (List Char × List Char)
  | [] => none
  | c :: cs =>
    if c = '"' then some ([], cs)
    else if c = '\\' then
      match cs with
      | [] => none
      | d :: ds =>
        if d = '"' ∨ d = '\\' then
          (readJsonString ds).map (fun r => (d :: r.1, r.2))
        else none
    else (readJsonString cs).map (fun r => (c :: r.1, r.2))

/-- Greedily read decimal digits, accumulating their value. -/
def readDigits : List Char → Nat → Nat × List Char
  | [], acc => (acc, [])
  | c :: cs, acc =>
    if isDigitCh c then readDigits cs (10 * acc + digitVal c)
    else (acc, c :: cs)

/-- Read a (possibly negative) decimal integer. -/
def readIntChars (cs : List Char) : Option (Int × List Char) :=
  match cs with
  | [] => none
  | c :: rest =>
    if c = '-' then
      match rest with
      | [] => none
      | d :: _ =>
        if isDigitCh d then
          some (-((readDigits rest 0).1 : Int), (readDigits rest 0).2)
        else none
    else if isDigitCh c then
      some (((readDigits (c :: rest) 0).1 : Int), (readDigits (c :: rest) 0).2)
    else none

/-- `json.loads` restricted to the payload object shape produced by
`jsonDumpsPayload` (the only shape this program ever decodes). -/
def jsonLoadsPayload (cs : List Char) : Option PayloadRec :=
  match expectLit litFullName cs with
  | none => none
  | some cs1 =>
    match readJsonString cs1 with
    | none => none
    | some (fn, cs2) =>
      match expectLit litBirth cs2 with
      | none => none
      | some cs3 =>
        match readJsonString cs3 with
        | none => none
        | some (bd, cs4) =>
          match expectLit litGender cs4 with
          | none => none
          | some cs5 =>
            match readJsonString cs5 with
            | none => none
            | some (g, cs6) =>
              match expectLit litAge cs6 with
              | none => none
              | some cs7 =>
                match readIntChars cs7 with
                | none => none
                | some (a, rest) =>
                  if rest = ['\x7d'] then some ⟨⟨fn⟩, ⟨bd⟩, ⟨g⟩, a⟩
                  else none

/-- The row appended to `compressed_rows` for one employee in
`mode_compressed_table`, generic in the `gzip.compress`-like codec `C`
(bytes of the UTF-8 encoded JSON text). -/
def compressedRowOf (C : List Char → List Nat) (e : Employee) (ref : Date) :
    String × String × String × List Nat :=
  (e.full_name, isoDateStr e.birth_date, e.gender,
    C (jsonDumpsPayload (payloadOf e ref)))

/-! ## Claim theorems -/

/-! ### C6: scoped-transaction commit / rollback -/

/-- C6: for every transaction body and state, `Database.transaction`
commits the body's new state on normal completion, and when the body
raises it rolls back (the caller's visible state is exactly the state at
`BEGIN`) and re-raises the original failure unchanged, so no partial
state from the body is committed. -/
theorem transaction_commit_rollback_spec {σ ε α : Type}
    (body : σ → Except ε (σ × α)) (s : σ) :
    (∀ s' a, body s = .ok (s', a) → transactionRun body s = (s', .ok a)) ∧
    (∀ e, body s = .error e → transactionRun body s = (s, .error e)) := by
  constructor
  · intro s' a h
    simp [transactionRun, h]
  · intro e h
    simp [transactionRun, h]

/-- Witness for C6 at a committing body and at a failing body over the
program's `DBState`. -/
theorem transaction_commit_rollback_witness :
    transactionRun
      (fun s : DBState => (Except.ok (s, true) : Except DbErr (DBState × Bool)))
      initState
      = (initState, Except.ok true) ∧
    transactionRun
      (fun _ : DBState =>
        (Except.error DbErr.integrityError : Except DbErr (DBState × Bool)))
      initState
      = (initState, Except.error DbErr.integrityError) :=
  ⟨(transaction_commit_rollback_spec _ initState).1 initState true rfl,
   (transaction_commit_rollback_spec _ initState).2 DbErr.integrityError rfl⟩

/-! ### C10: `compressed_table_stats` on the empty table -/

/-- C10: on every state whose compressed table is empty,
`compressed_table_stats` returns exactly `(0, 0)`: the `SUM` is `NULL`
over zero rows and `IFNULL` coalesces it to `0`, so the operation is
total. -/
theorem compressed_table_stats_empty (s : DBState) (h : s.compressed = []) :
    compressed_table_stats s = (0, 0) := by
  simp [compressed_table_stats, h, sqlSumLen]

/-- Witness for C10 at the freshly created database. -/
theorem compressed_table_stats_empty_witness :
    compressed_table_stats initState = (0, 0) :=
  compressed_table_stats_empty initState rfl

/-! ### C1: the value returned by `bulk_insert` -/

/-- Employee used in concrete counterexamples. -/
def empAlice : Employee := Employee.make "Alice Anderson" ⟨1990, 1, 1⟩ "Male"

/-- Second, distinct-key employee used in concrete counterexamples. -/
def empBob : Employee := Employee.make "Bob Brown" ⟨1991, 2, 2⟩ "Male"

/-- C1 (code bug): `bulk_insert` of `N = 2` records with `D = 0`
duplicate keys into the empty table.  The claim says the call returns
`N - D = 2`; the code returns `1`, because `SELECT changes()` after
`executemany` reports only the LAST single-row `INSERT OR IGNORE` of the
batch, not the batch total.  The table itself does receive both rows, so
only the returned count diverges. -/
theorem bulk_insert_changes_bug :
    (bulk_insert initState [empAlice, empBob] 10000).2 = Except.ok 1 ∧
    (bulk_insert initState [empAlice, empBob] 10000).1.employees.length = 2 ∧
    (1 : Nat) ≠ 2 - 0 := by
  decide

/-! ### C2: the value returned by `replace_compressed_rows` -/

/-- C2 (code bug): `replace_compressed_rows` with two distinct-key tuples
on an empty compressed table.  The claim says it returns the count
inserted (2); the code returns `1` because `SELECT changes()` after
`executemany` reports only the last single-row `INSERT`.  The
delete-then-insert replacement itself happens as claimed: both tuples are
in the table afterwards. -/
theorem replace_compressed_rows_changes_bug :
    (replace_compressed_rows initState
      [("Alice Anderson", "1990-01-01", "Male", [0, 1]),
       ("Bob Brown", "1991-02-02", "Male", [2])]).2 = Except.ok 1 ∧
    (replace_compressed_rows initState
      [("Alice Anderson", "1990-01-01", "Male", [0, 1]),
       ("Bob Brown", "1991-02-02", "Male", [2])]).1.compressed
      = [⟨"Alice Anderson", "1990-01-01", "Male", [0, 1]⟩,
         ⟨"Bob Brown", "1991-02-02", "Male", [2]⟩] ∧
    (1 : Nat) ≠ 2 := by
  decide

/-! ### C3: atomicity granularity of `bulk_insert` -/

/-- A per-batch `executemany` that raises a database error while
processing the batch containing `empBob` (modelling a later batch's
statement failing), and otherwise runs the real insert-or-ignore. -/
def emBoom : DBState → List Employee → Except DbErr DBState :=
  fun st batch =>
    if batch.any (fun e => e.full_name == "Bob Brown") then
      .error .integrityError
    else .ok (executemanyIgnore st (batch.map Employee.to_row))

/-- C3 counterexample: with `batch_size = 1` the two records form two
batches; the second batch's statement fails.  The claim predicts the
first batch's row remains committed; in the code one transaction encloses
ALL batches, so the rollback also discards the first batch: the table is
exactly the initial (empty) one and the error propagates. -/
theorem bulk_insert_batch_atomicity_cex :
    (bulk_insertWith emBoom initState [empAlice, empBob] 1).1 = initState ∧
    (bulk_insertWith emBoom initState [empAlice, empBob] 1).1.employees = [] ∧
    (bulk_insertWith emBoom initState [empAlice, empBob] 1).2
      = Except.error DbErr.integrityError := by
  decide

/-- C3 as amended: a multi-batch `bulk_insert` runs all its batches
inside ONE transaction and is therefore all-or-nothing across batches:
whenever any batch fails, the whole call leaves the table state exactly
as it was (earlier batches of the same call are rolled back too). -/
theorem bulk_insert_all_or_nothing {α ε : Type}
    (em : DBState → List α → Except ε DBState) (s : DBState)
    (employees : List α) (batchSize : Nat) (e : ε)
    (h : (bulk_insertWith em s employees batchSize).2 = .error e) :
    (bulk_insertWith em s employees batchSize).1 = s := by
  simp only [bulk_insertWith, transactionRun] at h ⊢
  rcases hb : bulkLoop em (chunked employees batchSize) s 0 with e' | p
  · simp
  · rw [hb] at h
    obtain ⟨s', a⟩ := p
    simp at h

/-- Witness for C3's amended theorem at the concrete failing run. -/
theorem bulk_insert_all_or_nothing_witness :
    (bulk_insertWith emBoom initState [empAlice, empBob] 1).1 = initState :=
  bulk_insert_all_or_nothing emBoom initState [empAlice, empBob] 1
    DbErr.integrityError (by decide)

/-! ### C5: record-construction invariants -/

/-- C5 counterexample: direct dataclass construction with gender
`"unknown"` does not fail (the constructor is total) and yields gender
`"Unknown"`, which is neither enum value — `__post_init__` only
normalizes, it never validates.  Only `from_strings` validates. -/
theorem employee_direct_construction_cex :
    (Employee.make "Smith John" ⟨1990, 1, 1⟩ "unknown").gender = "Unknown" ∧
    ¬((Employee.make "Smith John" ⟨1990, 1, 1⟩ "unknown").gender = "Male" ∨
      (Employee.make "Smith John" ⟨1990, 1, 1⟩ "unknown").gender = "Female") := by
  decide

/-- C5 as amended: `from_strings` behaves as claimed — on success the
record has a trimmed name, a gender equal to one of the two enum values
(matched case-insensitively after stripping) and a valid parsed calendar
date; a malformed date or an unrecognized gender raises the corresponding
validation error.  Direct construction, however, only normalizes (trims
the name, strip-capitalizes the gender) and never fails, so its result
respects the gender enum only when the normalized input happens to be one
of the two values. -/
theorem employee_construction_spec (fn bd g : String) (d : Date) :
    (Employee.make fn d g).full_name = pyStrip fn ∧
    (Employee.make fn d g).gender = pyCapitalize (pyStrip g) ∧
    (∀ e, Employee.from_strings fn bd g = .ok e →
      e.full_name = pyStrip fn ∧ (e.gender = "Male" ∨ e.gender = "Female") ∧
      ∃ dd, parseDate bd = some dd ∧ ValidDate dd ∧ e.birth_date = dd) ∧
    (parseDate bd = none → Employee.from_strings fn bd g = .error .badDate) ∧
    (∀ dd, parseDate bd = some dd →
      pyCapitalize (pyStrip g) ≠ "Male" → pyCapitalize (pyStrip g) ≠ "Female" →
      Employee.from_strings fn bd g = .error .badGender) := by
  refine ⟨rfl, rfl, ?_, ?_, ?_⟩
  · intro e he
    unfold Employee.from_strings at he
    split at he
    next => exact absurd he (by simp)
    next dd hp =>
      split at he
      next hg =>
        injection he with he
        subst he
        refine ⟨rfl, ?_, dd, hp, parseDate_valid hp, rfl⟩
        rcases hg with hg | hg <;> rw [hg]
        · exact Or.inl (show pyCapitalize (pyStrip "Male") = "Male" by decide)
        · exact Or.inr (show pyCapitalize (pyStrip "Female") = "Female" by decide)
      next => exact absurd he (by simp)
  · intro hp
    unfold Employee.from_strings
    rw [hp]
  · intro dd hp h1 h2
    unfold Employee.from_strings
    rw [hp]
    show (if pyCapitalize (pyStrip g) = "Male" ∨ pyCapitalize (pyStrip g) = "Female"
        then Except.ok (Employee.make fn dd (pyCapitalize (pyStrip g)))
        else Except.error ValErr.badGender) = Except.error ValErr.badGender
    rw [if_neg (not_or.mpr ⟨h1, h2⟩)]

/-! ### C7: duplicate-key `insert_one` -/

/-- C7: inserting two records with the same `(full_name, birth_date)`
identity key (the key not yet present, the first record passing the
gender CHECK): the first call returns `true`, the second returns `false`
(the return value reports whether a row was written, both calls
succeed), and the table afterwards holds exactly one row for that key —
with the FIRST record's gender, whatever the second record's gender. -/
theorem insert_one_first_wins (s : DBState) (e1 e2 : Employee)
    (hname : e2.full_name = e1.full_name)
    (hdate : e2.birth_date = e1.birth_date)
    (hfresh : rowKeyExists s.employees e1.full_name (isoDateStr e1.birth_date) = false)
    (hg : genderOk e1.gender = true) :
    (insert_employee s e1).2 = Except.ok true ∧
    (insert_employee (insert_employee s e1).1 e2).2 = Except.ok false ∧
    (insert_employee (insert_employee s e1).1 e2).1.employees.filter
        (fun r => r.full_name == e1.full_name &&
          r.birth_date == isoDateStr e1.birth_date)
      = [⟨s.nextId, e1.full_name, isoDateStr e1.birth_date, e1.gender⟩] := by
  have h1 : insert_employee s e1
      = ({ employees :=
            s.employees ++ [⟨s.nextId, e1.full_name, isoDateStr e1.birth_date, e1.gender⟩],
           nextId := s.nextId + 1,
           compressed := s.compressed,
           lastChanges := 1 }, Except.ok true) := by
    simp [insert_employee, transactionRun, execInsertOrIgnoreEmployee,
      Employee.to_row, hfresh, hg]
  have hkey2 : rowKeyExists
      (s.employees ++ [⟨s.nextId, e1.full_name, isoDateStr e1.birth_date, e1.gender⟩])
      e2.full_name (isoDateStr e2.birth_date) = true := by
    simp [rowKeyExists, hname, hdate]
  have h2 : insert_employee (insert_employee s e1).1 e2
      = ({ employees :=
            s.employees ++ [⟨s.nextId, e1.full_name, isoDateStr e1.birth_date, e1.gender⟩],
           nextId := s.nextId + 1,
           compressed := s.compressed,
           lastChanges := 0 }, Except.ok false) := by
    rw [h1]
    simp [insert_employee, transactionRun, execInsertOrIgnoreEmployee,
      Employee.to_row, hkey2]
  refine ⟨by rw [h1], by rw [h2], ?_⟩
  rw [h2]
  have hnil : s.employees.filter
      (fun r => r.full_name == e1.full_name &&
        r.birth_date == isoDateStr e1.birth_date) = [] := by
    rw [List.filter_eq_nil_iff]
    intro r hr hpr
    have : (s.employees.any
        (fun e => e.full_name == e1.full_name &&
          e.birth_date == isoDateStr e1.birth_date)) = true :=
      List.any_eq_true.mpr ⟨r, hr, hpr⟩
    rw [rowKeyExists] at hfresh
    rw [hfresh] at this
    exact absurd this (by simp)
  simp only [List.filter_append, hnil, List.nil_append, List.filter_cons]
  simp

/-- Witness for C7 at the spec's own example: `"Smith John Carlson"`,
born 1990-05-15, inserted as Male then as Female. -/
theorem insert_one_first_wins_witness :
    (insert_employee initState
      (Employee.make "Smith John Carlson" ⟨1990, 5, 15⟩ "Male")).2
      = Except.ok true ∧
    (insert_employee
      (insert_employee initState
        (Employee.make "Smith John Carlson" ⟨1990, 5, 15⟩ "Male")).1
      (Employee.make "Smith John Carlson" ⟨1990, 5, 15⟩ "Female")).2
      = Except.ok false ∧
    (insert_employee
      (insert_employee initState
        (Employee.make "Smith John Carlson" ⟨1990, 5, 15⟩ "Male")).1
      (Employee.make "Smith John Carlson" ⟨1990, 5, 15⟩ "Female")).1.employees.filter
        (fun r => r.full_name == (Employee.make "Smith John Carlson" ⟨1990, 5, 15⟩ "Male").full_name &&
          r.birth_date == isoDateStr (Employee.make "Smith John Carlson" ⟨1990, 5, 15⟩ "Male").birth_date)
      = [⟨initState.nextId, (Employee.make "Smith John Carlson" ⟨1990, 5, 15⟩ "Male").full_name,
          isoDateStr (Employee.make "Smith John Carlson" ⟨1990, 5, 15⟩ "Male").birth_date,
          (Employee.make "Smith John Carlson" ⟨1990, 5, 15⟩ "Male").gender⟩] :=
  insert_one_first_wins initState
    (Employee.make "Smith John Carlson" ⟨1990, 5, 15⟩ "Male")
    (Employee.make "Smith John Carlson" ⟨1990, 5, 15⟩ "Female")
    (by decide) (by decide) (by decide) (by decide)

/-! ### C4: the gender + name-prefix query -/

/-- The raw `(full_name, birth_date, gender)` columns of a table row. -/
def toTriple (e : ERow) : String × String × String :=
  (e.full_name, e.birth_date, e.gender)

/-- The same columns recovered from a decoded `Employee`. -/
def empTriple (emp : Employee) : String × String × String :=
  (emp.full_name, isoDateStr emp.birth_date, emp.gender)

/-- A stored row is *normalized* when it looks exactly like what the
application itself writes: trimmed name, canonical `YYYY-MM-DD` date
string, and a gender satisfying the CHECK constraint. -/
def rowNormalized (e : ERow) : Bool :=
  (pyStrip e.full_name == e.full_name) &&
  (match parseDate e.birth_date with
   | some d => isoDateStr d == e.birth_date
   | none => false) &&
  genderOk e.gender

theorem from_strings_normalized {e : ERow} (h : rowNormalized e = true) :
    ∃ d, parseDate e.birth_date = some d ∧ isoDateStr d = e.birth_date ∧
      Employee.from_strings e.full_name e.birth_date e.gender
        = .ok ⟨e.full_name, d, e.gender⟩ := by
  unfold rowNormalized at h
  simp only [Bool.and_eq_true] at h
  obtain ⟨⟨hs, hd⟩, hg⟩ := h
  have hsname : pyStrip e.full_name = e.full_name := by simpa using hs
  split at hd
  next d heq =>
    have hiso : isoDateStr d = e.birth_date := by simpa using hd
    have hgender : e.gender = "Male" ∨ e.gender = "Female" := by
      simpa [genderOk] using hg
    refine ⟨d, heq, hiso, ?_⟩
    unfold Employee.from_strings
    rw [heq]
    show (if pyCapitalize (pyStrip e.gender) = "Male" ∨
          pyCapitalize (pyStrip e.gender) = "Female"
        then Except.ok (Employee.make e.full_name d (pyCapitalize (pyStrip e.gender)))
        else Except.error ValErr.badGender) = Except.ok ⟨e.full_name, d, e.gender⟩
    rcases hgender with hgen | hgen <;> rw [hgen]
    · rw [if_pos (Or.inl (by decide))]
      simp [Employee.make, hsname,
        show pyCapitalize (pyStrip (pyCapitalize (pyStrip "Male"))) = "Male" by decide]
    · rw [if_pos (Or.inr (by decide))]
      simp [Employee.make, hsname,
        show pyCapitalize (pyStrip (pyCapitalize (pyStrip "Female"))) = "Female" by decide]
  next => exact absurd hd (by simp)

theorem decodeRows_normalized {rows : List ERow}
    (h : ∀ e ∈ rows, rowNormalized e = true) :
    ∃ out, decodeRows rows = .ok out ∧ out.map empTriple = rows.map toTriple := by
  induction rows with
  | nil => exact ⟨[], rfl, rfl⟩
  | cons e es ih =>
    obtain ⟨d, _, hiso, hfs⟩ := from_strings_normalized (h e (List.mem_cons_self e es))
    obtain ⟨out, hout, hmap⟩ := ih (fun x hx => h x (List.mem_cons_of_mem _ hx))
    refine ⟨⟨e.full_name, d, e.gender⟩ :: out, ?_, ?_⟩
    · simp [decodeRows, hfs, hout]
    · simp [empTriple, toTriple, hiso, hmap]

theorem pairwise_map_down {α β : Type} {R : β → β → Prop} (f : α → β) :
    ∀ {l : List α}, (l.map f).Pairwise R → l.Pairwise (fun a b => R (f a) (f b))
  | [], _ => List.Pairwise.nil
  | a :: l, h => by
    rw [List.map_cons, List.pairwise_cons] at h
    exact List.Pairwise.cons
      (fun b hb => h.1 (f b) (List.mem_map_of_mem f hb))
      (pairwise_map_down f h.2)

instance : IsTotal ERow (fun a b => a.full_name.data ≤ b.full_name.data) :=
  ⟨fun a b => le_total a.full_name.data b.full_name.data⟩

instance : IsTrans ERow (fun a b => a.full_name.data ≤ b.full_name.data) :=
  ⟨fun _ _ _ hab hbc => le_trans hab hbc⟩

/-- C4 counterexample: a stored row `("fisher", 1990-01-01, Male)` whose
name starts with a LOWER-case `f` IS returned by the query — SQLite's
default `LIKE 'F%'` is ASCII-case-insensitive — contradicting the
claim's case-sensitive prefix (which says such a row is not returned). -/
theorem fetch_male_surname_f_cex :
    fetch_male_surname_f [⟨1, "fisher", "1990-01-01", "Male"⟩]
      = Except.ok [⟨"fisher", ⟨1990, 1, 1⟩, "Male"⟩] ∧
    likeF "fisher" = true := by
  decide

/-- C4 as amended: over a table of normalized rows (everything the
application itself writes), `fetch_male_surname_f` returns exactly the
rows whose gender equals `'Male'` (case-sensitively) and whose
`full_name` matches the prefix `F` up to ASCII case folding — so names
starting with `f` are also returned — ordered by `full_name`
ascending. -/
theorem fetch_male_surname_f_spec (rows : List ERow)
    (hnorm : ∀ e ∈ rows, rowNormalized e = true) :
    ∃ out, fetch_male_surname_f rows = Except.ok out ∧
      List.Pairwise (fun a b : Employee => a.full_name ≤ b.full_name) out ∧
      (out.map empTriple).Perm
        ((rows.filter (fun e => e.gender == "Male" && likeF e.full_name)).map
          toTriple) := by
  have hsub : ∀ e ∈ fetch_male_surname_f_rows rows, rowNormalized e = true := by
    intro e he
    unfold fetch_male_surname_f_rows at he
    rw [List.mem_insertionSort] at he
    exact hnorm e (List.mem_of_mem_filter he)
  obtain ⟨out, hout, hmap⟩ := decodeRows_normalized hsub
  refine ⟨out, by unfold fetch_male_surname_f; exact hout, ?_, ?_⟩
  · have hsorted : List.Pairwise
        (fun a b : ERow => a.full_name.data ≤ b.full_name.data)
        (fetch_male_surname_f_rows rows) :=
      List.sorted_insertionSort _ _
    have h1 : ((fetch_male_surname_f_rows rows).map toTriple).Pairwise
        (fun x y => x.1.data ≤ y.1.data) :=
      List.pairwise_map.mpr (hsorted.imp (fun hab => hab))
    rw [← hmap] at h1
    have h2 : out.Pairwise
        (fun a b => (empTriple a).1.data ≤ (empTriple b).1.data) :=
      pairwise_map_down empTriple h1
    exact h2.imp (fun hab => String.le_iff_toList_le.mpr hab)
  · rw [hmap]
    exact (List.perm_insertionSort _ _).map toTriple

/-- Witness for C4's amended theorem on a small normalized table. -/
theorem fetch_male_surname_f_spec_witness :
    ∃ out, fetch_male_surname_f
        [⟨1, "Foster Abe", "1990-01-01", "Male"⟩,
         ⟨2, "Gibson Bob", "1991-01-01", "Male"⟩,
         ⟨3, "fallon Cid", "1992-01-01", "Male"⟩] = Except.ok out ∧
      List.Pairwise (fun a b : Employee => a.full_name ≤ b.full_name) out ∧
      (out.map empTriple).Perm
        (([⟨1, "Foster Abe", "1990-01-01", "Male"⟩,
           ⟨2, "Gibson Bob", "1991-01-01", "Male"⟩,
           ⟨3, "fallon Cid", "1992-01-01", "Male"⟩].filter
            (fun e : ERow => e.gender == "Male" && likeF e.full_name)).map
          toTriple) :=
  fetch_male_surname_f_spec _ (by decide)

/-! ### C8: `fetch_unique_sorted` -/

theorem listMin_mem : ∀ {l : List Nat} {m : Nat}, listMin l = some m → m ∈ l := by
  intro l
  induction l with
  | nil => intro m h; exact absurd h (by simp [listMin])
  | cons x xs ih =>
    intro m h
    rw [listMin] at h
    cases hx : listMin xs with
    | none =>
      rw [hx] at h
      injection h with h
      subst h
      exact List.mem_cons_self x xs
    | some m' =>
      rw [hx] at h
      injection h with h
      subst h
      rcases Nat.le_total x m' with hle | hle
      · have h3 : Nat.min x m' = x := Nat.min_eq_left hle
        rw [h3]
        exact List.mem_cons_self x xs
      · have h3 : Nat.min x m' = m' := Nat.min_eq_right hle
        rw [h3]
        exact List.mem_cons_of_mem x (ih hx)

theorem listMin_le : ∀ {l : List Nat} {m : Nat}, listMin l = some m →
    ∀ x ∈ l, m ≤ x := by
  intro l
  induction l with
  | nil => intro m h; exact absurd h (by simp [listMin])
  | cons x xs ih =>
    intro m h y hy
    rw [listMin] at h
    cases hx : listMin xs with
    | none =>
      rw [hx] at h
      injection h with h
      subst h
      rcases List.mem_cons.mp hy with rfl | hy'
      · exact le_refl _
      · cases xs with
        | nil => exact absurd hy' (by simp)
        | cons z zs => exact absurd hx (by rw [listMin]; cases listMin zs <;> simp)
    | some m' =>
      rw [hx] at h
      injection h with h
      subst h
      rcases List.mem_cons.mp hy with rfl | hy'
      · exact Nat.min_le_left _ _
      · exact le_trans (Nat.min_le_right _ _) (ih hx y hy')

theorem listMin_isSome {l : List Nat} (h : l ≠ []) : ∃ m, listMin l = some m := by
  cases l with
  | nil => exact absurd rfl h
  | cons x xs =>
    rw [listMin]
    cases listMin xs <;> exact ⟨_, rfl⟩

/-- `e` holds the smallest surrogate id among the rows sharing its
identity key. -/
def hasMinId (rows : List ERow) (e : ERow) : Prop :=
  ∀ e' ∈ rows, e'.full_name = e.full_name → e'.birth_date = e.birth_date →
    e.id ≤ e'.id

theorem idsOfKey_mem {rows : List ERow} {k : String × String} {i : Nat}
    (h : i ∈ idsOfKey rows k) :
    ∃ r ∈ rows, r.id = i ∧ r.full_name = k.1 ∧ r.birth_date = k.2 := by
  unfold idsOfKey at h
  rw [List.mem_map] at h
  obtain ⟨r, hr, hid⟩ := h
  rw [List.mem_filter] at hr
  obtain ⟨hrm, hp⟩ := hr
  simp only [Bool.and_eq_true, beq_iff_eq] at hp
  exact ⟨r, hrm, hid, hp.1, hp.2⟩

theorem mem_idsOfKey {rows : List ERow} {r : ERow} {k : String × String}
    (hr : r ∈ rows) (hn : r.full_name = k.1) (hb : r.birth_date = k.2) :
    r.id ∈ idsOfKey rows k := by
  unfold idsOfKey
  exact List.mem_map_of_mem _ (List.mem_filter.mpr ⟨hr, by simp [hn, hb]⟩)

/-- Under distinct surrogate ids (the `id INTEGER PRIMARY KEY` column), a
row is selected by the `MIN(id) GROUP BY` join exactly when it holds the
smallest id of its identity-key group. -/
theorem sel_iff {rows : List ERow} (hids : (rows.map ERow.id).Nodup)
    {e : ERow} (he : e ∈ rows) :
    (groupMinIds rows).contains e.id = true ↔ hasMinId rows e := by
  constructor
  · intro h
    have hmem : e.id ∈ groupMinIds rows := by simpa using h
    unfold groupMinIds at hmem
    rw [List.mem_filterMap] at hmem
    obtain ⟨k, _, hmin⟩ := hmem
    obtain ⟨r, hrm, hrid, hrn, hrb⟩ := idsOfKey_mem (listMin_mem hmin)
    have hre : r = e := List.inj_on_of_nodup_map hids hrm he hrid
    subst hre
    intro e' he' hn hb
    exact listMin_le hmin e'.id
      (mem_idsOfKey he' (hn.trans hrn) (hb.trans hrb))
  · intro h
    have hk : (e.full_name, e.birth_date) ∈ keysOf rows := by
      unfold keysOf
      exact List.mem_dedup.mpr (List.mem_map_of_mem _ he)
    have hne : idsOfKey rows (e.full_name, e.birth_date) ≠ [] := by
      have hmem := @mem_idsOfKey rows e (e.full_name, e.birth_date) he rfl rfl
      intro hnil
      rw [hnil] at hmem
      exact absurd hmem (by simp)
    obtain ⟨m, hm⟩ := listMin_isSome hne
    obtain ⟨r, hrm, hrid, hrn, hrb⟩ := idsOfKey_mem (listMin_mem hm)
    have h1 : e.id ≤ r.id := h r hrm hrn hrb
    have h2 : m ≤ e.id := listMin_le hm e.id
      (@mem_idsOfKey rows e (e.full_name, e.birth_date) he rfl rfl)
    have hme : m = e.id := by omega
    have : e.id ∈ groupMinIds rows := by
      unfold groupMinIds
      rw [List.mem_filterMap]
      exact ⟨(e.full_name, e.birth_date), hk, by rw [hm, hme]⟩
    simpa using this

/-- Two selected rows with the same identity key are the same row. -/
theorem sel_unique {rows : List ERow} (hids : (rows.map ERow.id).Nodup)
    {a b : ERow} (ha : a ∈ rows) (hb : b ∈ rows)
    (hsa : (groupMinIds rows).contains a.id = true)
    (hsb : (groupMinIds rows).contains b.id = true)
    (hn : a.full_name = b.full_name) (hd : a.birth_date = b.birth_date) :
    a = b := by
  have h1 : a.id ≤ b.id := (sel_iff hids ha).mp hsa b hb hn.symm hd.symm
  have h2 : b.id ≤ a.id := (sel_iff hids hb).mp hsb a ha hn hd
  exact List.inj_on_of_nodup_map hids ha hb (le_antisymm h1 h2)

/-- C8 counterexample: the table state
`[(id 1, "a ", 2000-01-01, Male), (id 2, "a", 2000-01-01, Male)]` has two
distinct stored keys, so both rows are group minima and both are
returned; but decoding passes every row through
`Employee.from_strings`, whose `__post_init__` strips the name, so the
returned list contains TWO entries with equal
`(full_name, birth_date)` — contradicting the claim for this table
state. -/
theorem fetch_unique_sorted_cex :
    fetch_unique_sorted
        [⟨1, "a ", "2000-01-01", "Male"⟩, ⟨2, "a", "2000-01-01", "Male"⟩]
      = Except.ok
        [⟨"a", ⟨2000, 1, 1⟩, "Male"⟩, ⟨"a", ⟨2000, 1, 1⟩, "Male"⟩] := by
  decide

/-- C8 as amended: on every table state whose rows are normalized (as all
rows written by this application are) and whose surrogate ids are
distinct (guaranteed by the `INTEGER PRIMARY KEY` column),
`fetch_unique_sorted` succeeds and returns, ordered by `full_name`
ascending: exactly one record per distinct identity key — the row with
the smallest surrogate id of its group — with no two entries sharing a
`(full_name, birth_date)` key. -/
theorem fetch_unique_sorted_spec (rows : List ERow)
    (hids : (rows.map ERow.id).Nodup)
    (hnorm : ∀ e ∈ rows, rowNormalized e = true) :
    ∃ out, fetch_unique_sorted rows = Except.ok out ∧
      List.Pairwise (fun a b : Employee => a.full_name ≤ b.full_name) out ∧
      List.Pairwise (fun a b : Employee =>
        ¬(a.full_name = b.full_name ∧ a.birth_date = b.birth_date)) out ∧
      (∀ emp ∈ out, ∃ e ∈ rows, empTriple emp = toTriple e ∧ hasMinId rows e) ∧
      (∀ e ∈ rows, ∃ emp ∈ out, emp.full_name = e.full_name ∧
        isoDateStr emp.birth_date = e.birth_date) := by
  have hsub : ∀ e ∈ fetch_unique_sorted_rows rows, rowNormalized e = true := by
    intro e he
    unfold fetch_unique_sorted_rows at he
    rw [List.mem_insertionSort] at he
    exact hnorm e (List.mem_of_mem_filter he)
  obtain ⟨out, hout, hmap⟩ := decodeRows_normalized hsub
  refine ⟨out, by unfold fetch_unique_sorted; exact hout, ?_, ?_, ?_, ?_⟩
  · have hsorted : List.Pairwise
        (fun a b : ERow => a.full_name.data ≤ b.full_name.data)
        (fetch_unique_sorted_rows rows) :=
      List.sorted_insertionSort _ _
    have h1 : ((fetch_unique_sorted_rows rows).map toTriple).Pairwise
        (fun x y => x.1.data ≤ y.1.data) :=
      List.pairwise_map.mpr (hsorted.imp (fun hab => hab))
    rw [← hmap] at h1
    exact (pairwise_map_down empTriple h1).imp
      (fun hab => String.le_iff_toList_le.mpr hab)
  · have hnd : rows.Nodup := hids.of_map _
    have hpair : (rows.filter
        (fun e => (groupMinIds rows).contains e.id)).Pairwise
        (fun a b : ERow =>
          ¬(a.full_name = b.full_name ∧ a.birth_date = b.birth_date)) := by
      refine List.Pairwise.imp_of_mem ?_ (hnd.filter _)
      intro a b ha hb hne hkeq
      rw [List.mem_filter] at ha hb
      exact hne (sel_unique hids ha.1 hb.1 ha.2 hb.2 hkeq.1 hkeq.2)
    have hsym : Symmetric (fun a b : ERow =>
        ¬(a.full_name = b.full_name ∧ a.birth_date = b.birth_date)) := by
      intro a b h hk
      exact h ⟨hk.1.symm, hk.2.symm⟩
    have hsp : (fetch_unique_sorted_rows rows).Pairwise
        (fun a b : ERow =>
          ¬(a.full_name = b.full_name ∧ a.birth_date = b.birth_date)) :=
      ((List.perm_insertionSort _ _).pairwise_iff @hsym).mpr hpair
    have h1 : ((fetch_unique_sorted_rows rows).map toTriple).Pairwise
        (fun x y : String × String × String =>
          ¬(x.1 = y.1 ∧ x.2.1 = y.2.1)) :=
      hsp.map toTriple (fun a b hab => hab)
    rw [← hmap] at h1
    refine (pairwise_map_down empTriple h1).imp ?_
    intro a b hab hk
    exact hab ⟨hk.1, congrArg isoDateStr hk.2⟩
  · intro emp hemp
    have hmem : empTriple emp ∈ out.map empTriple :=
      List.mem_map_of_mem _ hemp
    rw [hmap] at hmem
    obtain ⟨r, hr, heq⟩ := List.mem_map.mp hmem
    unfold fetch_unique_sorted_rows at hr
    rw [List.mem_insertionSort, List.mem_filter] at hr
    exact ⟨r, hr.1, heq.symm, (sel_iff hids hr.1).mp hr.2⟩
  · intro e he
    have hne : idsOfKey rows (e.full_name, e.birth_date) ≠ [] := by
      have hmem := @mem_idsOfKey rows e (e.full_name, e.birth_date) he rfl rfl
      intro hnil
      rw [hnil] at hmem
      exact absurd hmem (by simp)
    obtain ⟨m, hm⟩ := listMin_isSome hne
    obtain ⟨r, hrm, hrid, hrn, hrb⟩ := idsOfKey_mem (listMin_mem hm)
    have hselr : (groupMinIds rows).contains r.id = true := by
      apply (sel_iff hids hrm).mpr
      intro e' he' hn hb
      rw [hrid]
      exact listMin_le hm e'.id
        (mem_idsOfKey he' (hn.trans hrn) (hb.trans hrb))
    have hrs : r ∈ fetch_unique_sorted_rows rows := by
      unfold fetch_unique_sorted_rows
      rw [List.mem_insertionSort, List.mem_filter]
      exact ⟨hrm, hselr⟩
    have hmem : toTriple r ∈ (fetch_unique_sorted_rows rows).map toTriple :=
      List.mem_map_of_mem _ hrs
    rw [← hmap] at hmem
    obtain ⟨emp, hemp, heq⟩ := List.mem_map.mp hmem
    refine ⟨emp, hemp, ?_, ?_⟩
    · have := congrArg Prod.fst heq
      simpa [empTriple, toTriple, hrn] using this
    · have := congrArg (fun p : String × String × String => p.2.1) heq
      simpa [empTriple, toTriple, hrb] using this

/-- Table used by the C8 witness: three normalized rows, two of which
share an identity key. -/
def c8rows : List ERow :=
  [⟨1, "Bravo Bob", "1990-01-01", "Male"⟩,
   ⟨2, "Alpha Al", "1990-01-01", "Female"⟩,
   ⟨3, "Bravo Bob", "1990-01-01", "Female"⟩]

/-- Witness for C8's amended theorem on a small normalized table with a
duplicate identity key. -/
theorem fetch_unique_sorted_spec_witness :
    ∃ out, fetch_unique_sorted c8rows = Except.ok out ∧
      List.Pairwise (fun a b : Employee => a.full_name ≤ b.full_name) out ∧
      List.Pairwise (fun a b : Employee =>
        ¬(a.full_name = b.full_name ∧ a.birth_date = b.birth_date)) out ∧
      (∀ emp ∈ out, ∃ e ∈ c8rows,
        empTriple emp = toTriple e ∧ hasMinId c8rows e) ∧
      (∀ e ∈ c8rows, ∃ emp ∈ out, emp.full_name = e.full_name ∧
        isoDateStr emp.birth_date = e.birth_date) :=
  fetch_unique_sorted_spec c8rows (by decide) (by decide)

/-! ### C9: the compressed-payload round trip -/

theorem expectLit_append : ∀ (l rest : List Char), expectLit l (l ++ rest) = some rest
  | [], _ => rfl
  | c :: ls, rest => by
    simp [expectLit, expectLit_append ls rest]

theorem readJsonString_cons (c : Char) (cs : List Char) :
    readJsonString (c :: cs)
      = if c = '"' then some ([], cs)
        else if c = '\\' then
          match cs with
          | [] => none
          | d :: ds =>
            if d = '"' ∨ d = '\\' then
              (readJsonString ds).map (fun r => (d :: r.1, r.2))
            else none
        else (readJsonString cs).map (fun r => (c :: r.1, r.2)) := by
  rw [readJsonString.eq_def]

theorem readJsonString_escape :
    ∀ (s rest : List Char), readJsonString (escapeJson s ++ '"' :: rest) = some (s, rest) := by
  intro s
  induction s with
  | nil =>
    intro rest
    simp only [escapeJson, List.nil_append]
    rw [readJsonString_cons, if_pos rfl]
  | cons c cs ih =>
    intro rest
    by_cases hc : c = '"' ∨ c = '\\'
    · simp only [escapeJson, if_pos hc, List.cons_append]
      rw [readJsonString_cons, if_neg (by decide), if_pos rfl]
      show (if c = '"' ∨ c = '\\' then
          (readJsonString (escapeJson cs ++ '"' :: rest)).map
            (fun r => (c :: r.1, r.2))
        else none) = some (c :: cs, rest)
      rw [if_pos hc, ih rest]
      rfl
    · push_neg at hc
      simp only [escapeJson, if_neg (not_or.mpr ⟨hc.1, hc.2⟩), List.cons_append]
      rw [readJsonString_cons, if_neg hc.1, if_neg hc.2, ih rest]
      rfl

theorem readDigits_spec :
    ∀ (ds : List Char), (∀ c ∈ ds, isDigitCh c = true) →
    ∀ (rest : List Char), (∀ c, rest.head? = some c → isDigitCh c = false) →
    ∀ acc, readDigits (ds ++ rest) acc
      = (ds.foldl (fun a c => 10 * a + digitVal c) acc, rest) := by
  intro ds
  induction ds with
  | nil =>
    intro _ rest hrest acc
    cases rest with
    | nil => rfl
    | cons c cs => simp [readDigits, hrest c rfl]
  | cons d ds ih =>
    intro hds rest hrest acc
    have hd : isDigitCh d = true := hds d (List.mem_cons_self d ds)
    simp only [List.cons_append, readDigits, hd, if_pos, List.foldl_cons]
    exact ih (fun c hc => hds c (List.mem_cons_of_mem _ hc)) rest hrest _

theorem readDigits_natToChars (n : Nat) (rest : List Char)
    (hrest : ∀ c, rest.head? = some c → isDigitCh c = false) :
    readDigits (natToChars n ++ rest) 0 = (n, rest) := by
  have h := readDigits_spec (natToChars n) (natToChars_all_digits n) rest hrest 0
  rw [h]
  have : (natToChars n).foldl (fun a c => 10 * a + digitVal c) 0 = n :=
    digitsToNat_natToChars n
  rw [this]

theorem readIntChars_intToChars (i : Int) (rest : List Char)
    (hrest : ∀ c, rest.head? = some c → isDigitCh c = false) :
    readIntChars (intToChars i ++ rest) = some (i, rest) := by
  by_cases hi : i < 0
  · have hm : intToChars i = '-' :: natToChars (-i).toNat := by
      simp [intToChars, hi]
    obtain ⟨c, cs, hnc⟩ :=
      List.exists_cons_of_ne_nil (natToChars_ne_nil (-i).toNat)
    have hcd : isDigitCh c = true :=
      natToChars_all_digits _ c (by rw [hnc]; exact List.mem_cons_self c cs)
    have hread : readDigits (natToChars (-i).toNat ++ rest) 0 = ((-i).toNat, rest) :=
      readDigits_natToChars _ rest hrest
    rw [hm]
    rw [hnc] at hread ⊢
    simp only [List.cons_append, readIntChars, if_pos, hcd]
    simp only [List.cons_append] at hread
    rw [hread]
    have : -(((-i).toNat : Nat) : Int) = i := by omega
    rw [this]
  · have h0 : 0 ≤ i := by omega
    have hm : intToChars i = natToChars i.toNat := by
      simp [intToChars, hi]
    obtain ⟨c, cs, hnc⟩ := List.exists_cons_of_ne_nil (natToChars_ne_nil i.toNat)
    have hcd : isDigitCh c = true :=
      natToChars_all_digits _ c (by rw [hnc]; exact List.mem_cons_self c cs)
    have hcnd : ¬(c = '-') := by
      intro hceq
      rw [hceq] at hcd
      exact absurd hcd (by decide)
    have hread : readDigits (natToChars i.toNat ++ rest) 0 = (i.toNat, rest) :=
      readDigits_natToChars _ rest hrest
    rw [hm]
    rw [hnc] at hread ⊢
    simp only [List.cons_append] at hread ⊢
    simp only [readIntChars, if_neg hcnd, if_pos hcd]
    rw [hread]
    have : ((i.toNat : Nat) : Int) = i := Int.toNat_of_nonneg h0
    rw [this]

/-- The JSON layer is lossless on this record shape: parsing the
serialized payload returns exactly the structured record. -/
theorem jsonLoads_jsonDumps (p : PayloadRec) :
    jsonLoadsPayload (jsonDumpsPayload p) = some p := by
  unfold jsonDumpsPayload jsonLoadsPayload
  simp only [expectLit_append, readJsonString_escape,
    readIntChars_intToChars p.age ['\x7d']
      (by intro c hc; simp at hc; subst hc; decide)]
  rfl

/-- C9: the compressed-payload round trip.  `C`/`D` stand for the byte
codec around the JSON text (UTF-8 encoding followed by `gzip.compress`,
and `gzip.decompress` followed by UTF-8 decoding); the only fact used
about them is the gzip library contract `D (C x) = x` (lossless
general-purpose compression).  The two character-range hypotheses
restrict the statement to names/genders without control characters,
where `jsonDumpsPayload` coincides exactly with
`json.dumps(ensure_ascii=False)`.  Conclusion: decoding the payload that
`mode_compressed_table` stores for an employee returns exactly the
structured record `{full_name, birth_date, gender, age}` that was
compressed, and its `age` field is `Employee.age` evaluated at the
compression-time reference date. -/
theorem compressed_payload_roundtrip
    (C : List Char → List Nat) (D : List Nat → List Char)
    (hCD : ∀ x, D (C x) = x) (e : Employee) (ref : Date)
    (hfn : ∀ c ∈ e.full_name.data, 32 ≤ c.toNat)
    (hg : ∀ c ∈ e.gender.data, 32 ≤ c.toNat) :
    jsonLoadsPayload (D (compressedRowOf C e ref).2.2.2)
      = some (payloadOf e ref) ∧
    (payloadOf e ref).age = e.age ref := by
  refine ⟨?_, rfl⟩
  show jsonLoadsPayload (D (C (jsonDumpsPayload (payloadOf e ref)))) = _
  rw [hCD, jsonLoads_jsonDumps]

/-- Witness for C9 with the identity-on-characters byte codec and the
spec's own example record (Fallon Mary Ivanovich, born 1985-02-10,
age 40 as of 2025-02-15). -/
theorem compressed_payload_roundtrip_witness :
    jsonLoadsPayload
        ((fun ns => ns.map Char.ofNat)
          ((compressedRowOf (fun cs => cs.map Char.toNat)
              (Employee.make "Fallon Mary Ivanovich" ⟨1985, 2, 10⟩ "Female")
              ⟨2025, 2, 15⟩).2.2.2))
      = some (payloadOf
          (Employee.make "Fallon Mary Ivanovich" ⟨1985, 2, 10⟩ "Female")
          ⟨2025, 2, 15⟩) ∧
    (payloadOf (Employee.make "Fallon Mary Ivanovich" ⟨1985, 2, 10⟩ "Female")
        ⟨2025, 2, 15⟩).age
      = (Employee.make "Fallon Mary Ivanovich" ⟨1985, 2, 10⟩ "Female").age
          ⟨2025, 2, 15⟩ :=
  compressed_payload_roundtrip
    (fun cs => cs.map Char.toNat)
    (fun ns => ns.map Char.ofNat)
    (fun x => by
      simp only [List.map_map]
      have : Char.ofNat ∘ Char.toNat = id := funext Char.ofNat_toNat
      rw [this, List.map_id])
    (Employee.make "Fallon Mary Ivanovich" ⟨1985, 2, 10⟩ "Female")
    ⟨2025, 2, 15⟩
    (by decide)
    (by decide)
